import Mathlib

/-!
Verification development for `enigma.py`: a shallow embedding of the rotor,
reflector and machine code, together with theorems about the properties the
specification states.  Python strings are modelled as `List Char`, dictionaries
built with `dict(zip(ks, vs))` as association lists looked up with
last-occurrence-wins semantics, and raised exceptions (`KeyError`,
`ValueError`, `IndexError`) as `Option`/`Except` failures.
-/

namespace Enigma

/-- Embeds `ALPHABET = string.ascii_uppercase` (enigma.py line 4). -/
def ALPHABET : List Char :=
  ['A','B','C','D','E','F','G','H','I','J','K','L','M',
   'N','O','P','Q','R','S','T','U','V','W','X','Y','Z']

/-- Lookup in a Python dict built by `dict(zip(ks, vs))`, represented as the
association list `ks.zip vs`: on duplicate keys the last pair wins; a missing
key (Python `KeyError`) is `none`. -/
def dictLookup : List (Char × Char) → Char → Option Char
  | [], _ => none
  | p :: rest, k =>
    match dictLookup rest k with
    | some v => some v
    | none => if p.1 = k then some p.2 else none

/-- Embeds Python `str.index` / `list.index`: index of the first occurrence,
with `ValueError` (absent element) as `none`. -/
def pyIndex : List Char → Char → Option Nat
  | [], _ => none
  | c :: rest, k => if c = k then some 0 else (pyIndex rest k).map (fun i => i + 1)

/-- Embeds Python single-character `str.upper()` on the ASCII range: lowercase
letters are shifted to uppercase, everything else is unchanged. -/
def pyUpper (c : Char) : Char :=
  if 'a' ≤ c ∧ c ≤ 'z' then Char.ofNat (c.toNat - 32) else c

/-- The Python slice rotation `l[n:] + l[:n]` (note: for `n ≥ l.length` this is
`l` itself, exactly as in Python). -/
def rotList (n : Nat) (l : List Char) : List Char := l.drop n ++ l.take n

/-- Embeds the mutable state of class `Rotor` (enigma.py lines 6-79).
`alphabet` is the rotated alphabet view `self.alphabet`, `rotations` the
counter `self.rotations`, and the two mapping dicts are kept as the
association lists they were zipped from. -/
structure Rotor where
  initial_offset : Nat
  alphabet : List Char
  rotations : Nat
  forward_mappings : List (Char × Char)
  reverse_mappings : List (Char × Char)
deriving DecidableEq

/-- Embeds `Rotor.rotate` (lines 35-45):
`self.alphabet = self.alphabet[offset:] + self.alphabet[:offset]` and
`self.rotations = offset` (the counter is overwritten, not accumulated).
The Python default argument `offset=1` is passed explicitly by every caller
in this file. -/
def Rotor.rotate (r : Rotor) (offset : Nat) : Rotor :=
  { r with
    alphabet := r.alphabet.drop offset ++ r.alphabet.take offset
    rotations := offset }

/-- Embeds `Rotor.reset` (lines 24-33): `self.alphabet = ALPHABET`,
`self.rotate(self.initial_offset)`, `self.rotations = 1`. -/
def Rotor.reset (r : Rotor) : Rotor :=
  let r1 : Rotor := { r with alphabet := ALPHABET }
  let r2 := r1.rotate r.initial_offset
  { r2 with rotations := 1 }

/-- Embeds `Rotor.__init__` (lines 18-22): store the offset, `reset()`, then
build `forward_mappings = dict(zip(self.alphabet, mappings))` and
`reverse_mappings = dict(zip(mappings, self.alphabet))` — note that
`self.alphabet` here is the already-rotated alphabet produced by `reset`.
The constructor performs no validation and cannot fail. -/
def Rotor.init (mappings : List Char) (offset : Nat) : Rotor :=
  let r0 : Rotor := ⟨offset, [], 0, [], []⟩
  let r1 := r0.reset
  { r1 with
    forward_mappings := r1.alphabet.zip mappings
    reverse_mappings := mappings.zip r1.alphabet }

/-- Embeds `Rotor.encipher` (lines 47-55): `self.forward_mappings[character]`. -/
def Rotor.encipher (r : Rotor) (character : Char) : Option Char :=
  dictLookup r.forward_mappings character

/-- Embeds `Rotor.decipher` (lines 57-65): `self.reverse_mappings[character]`. -/
def Rotor.decipher (r : Rotor) (character : Char) : Option Char :=
  dictLookup r.reverse_mappings character

/-- Embeds `Rotor.translate` (lines 67-79): read the symbol at
`self.alphabet[contact_index]`, pass it through `encipher`/`decipher`
depending on the direction, and return `self.alphabet.index` of the result.
The method mutates nothing, which the embedding reflects by returning only
the new contact index.  The Python default `right=True` is passed explicitly
by callers. -/
def Rotor.translate (r : Rotor) (contact_index : Nat) (right : Bool) : Option Nat :=
  (r.alphabet[contact_index]?).bind fun x =>
    (if right then r.encipher x else r.decipher x).bind fun x2 =>
      pyIndex r.alphabet x2

/-- Embeds class `Reflector` (lines 81-106): just the dict
`self.mappings = dict(zip(ALPHABET, mappings))`. -/
structure Reflector where
  mappings : List (Char × Char)
deriving DecidableEq

/-- The message of the `ValueError` raised by `Reflector.__init__` (line 96). -/
def valueErrorMsg (x y : Char) : String :=
  "Mapping for " ++ x.toString ++ " and " ++ y.toString ++ " is invalid"

/-- The `KeyError` raised by `self.mappings[y]` when `y` is not a key. -/
def keyErrorMsg (y : Char) : String :=
  "KeyError: " ++ y.toString

/-- The validation loop of `Reflector.__init__` (lines 93-96): for each key `x`
of the dict (in insertion order; the keys, zipped from `ALPHABET`, are
distinct, so iterating the keys is iterating the pairs), look up
`y = mappings[x]` and raise `ValueError` if `x != mappings[y]` — where the
inner lookup `mappings[y]` itself raises `KeyError` if `y` is not a key. -/
def involutionCheck (d : List (Char × Char)) : List (Char × Char) → Except String Unit
  | [] => Except.ok ()
  | (x, y) :: rest =>
    match dictLookup d y with
    | none => Except.error (keyErrorMsg y)
    | some z =>
      if x = z then involutionCheck d rest else Except.error (valueErrorMsg x y)

/-- Embeds `Reflector.__init__` (lines 90-96): build the dict and run the
validation loop, propagating its exception. -/
def Reflector.init (mappings : List Char) : Except String Reflector :=
  let d := ALPHABET.zip mappings
  match involutionCheck d d with
  | Except.ok _ => Except.ok ⟨d⟩
  | Except.error e => Except.error e

/-- Embeds `Reflector.__getitem__` (lines 98-106): `self.mappings[character]`. -/
def Reflector.reflect (refl : Reflector) (character : Char) : Option Char :=
  dictLookup refl.mappings character

/-- Embeds class `Machine` (lines 108-119): a rotor list and a reflector. -/
structure Machine where
  rotors : List Rotor
  reflector : Reflector
deriving DecidableEq

/-- Embeds `Machine.reset` (lines 121-129): reset every rotor. -/
def Machine.reset (m : Machine) : Machine :=
  { m with rotors := m.rotors.map Rotor.reset }

/-- The forward loop of `encipher_character` (lines 177-178):
`for rotor in self.rotors: contact_index = rotor.translate(contact_index)`. -/
def fwdPass (rotors : List Rotor) (contact_index : Nat) : Option Nat :=
  match rotors with
  | [] => some contact_index
  | r :: rest => (r.translate contact_index true).bind fun ci => fwdPass rest ci

/-- The return loop of `encipher_character` (lines 183-184):
`for rotor in reversed(self.rotors): contact_index = rotor.translate(contact_index, False)`
— the list is traversed from its last element to its first. -/
def bwdPass (rotors : List Rotor) (contact_index : Nat) : Option Nat :=
  match rotors with
  | [] => some contact_index
  | r :: rest => (bwdPass rest contact_index).bind fun ci => r.translate ci false

/-- The body of the stepping loop of `encipher_character` (lines 187-191):
at index `i` (starting from 1) the turnover condition reads
`self.rotors[i-1].rotations`, i.e. the value of rotor `i-1` *after* the
current pass possibly rotated it, which is the `prev` argument here. -/
def cascade (prev : Rotor) (rest : List Rotor) (index : Nat) : List Rotor :=
  match rest with
  | [] => []
  | r :: rs =>
    let r2 := if prev.rotations % (ALPHABET.length * index) = 0 then r.rotate 1 else r
    r2 :: cascade r2 rs (index + 1)

/-- The stepping block of `encipher_character` (lines 186-191):
`self.rotors[0].rotate()` (an `IndexError`, i.e. `none`, on an empty rotor
list) followed by the turnover loop over the indices from 1 up. -/
def stepRotors : List Rotor → Option (List Rotor)
  | [] => none
  | r0 :: rest =>
    let r0' := r0.rotate 1
    some (r0' :: cascade r0' rest 1)

/-- Embeds `Machine.encipher_character` (lines 153-193):
uppercase; characters outside the alphabet are returned unchanged with no
state mutation; otherwise route the contact index through the rotors, the
reflector, and the rotors in reverse, step the rotors, and return the
character of the final contact index. -/
def Machine.encipher_character (m : Machine) (x : Char) : Option (Char × Machine) :=
  if pyUpper x ∈ ALPHABET then
    (pyIndex ALPHABET (pyUpper x)).bind fun contact_index =>
      (fwdPass m.rotors contact_index).bind fun ci1 =>
        (ALPHABET[ci1]?).bind fun c1 =>
          (m.reflector.reflect c1).bind fun y =>
            (pyIndex ALPHABET y).bind fun ci2 =>
              (bwdPass m.rotors ci2).bind fun ci3 =>
                (stepRotors m.rotors).bind fun rotors2 =>
                  (ALPHABET[ci3]?).map fun out => (out, { m with rotors := rotors2 })
  else some (pyUpper x, m)

/-- Embeds `Machine.encipher` (lines 131-139): thread every character of the
text through `encipher_character`, concatenating the outputs; a raised
exception propagates. -/
def Machine.encipher : Machine → List Char → Option (List Char × Machine)
  | m, [] => some ([], m)
  | m, c :: cs =>
    match m.encipher_character c with
    | none => none
    | some (c2, m2) =>
      match Machine.encipher m2 cs with
      | none => none
      | some p => some (c2 :: p.1, p.2)

/-- Embeds `Machine.decipher` (lines 141-151): `self.reset()` then
`self.encipher(text)`. -/
def Machine.decipher (m : Machine) (text : List Char) : Option (List Char × Machine) :=
  m.reset.encipher text

/-- A rotor state as produced by constructing a rotor from a permutation
wiring string and thereafter only rotating it: the rotated-alphabet view is a
permutation of the alphabet, and the two mapping dicts were zipped, in
opposite orders, from a pair of duplicate-free 26-symbol lists. -/
def Rotor.WF (r : Rotor) : Prop :=
  r.alphabet.Perm ALPHABET ∧
  ∃ b w : List Char, b.Perm ALPHABET ∧ w.Perm ALPHABET ∧
    r.forward_mappings = b.zip w ∧ r.reverse_mappings = w.zip b

/-- A reflector state as produced by a successful `Reflector.init` on a
26-character mapping string: the dict was zipped from `ALPHABET` and every
pair is symmetric. -/
def Reflector.WF (refl : Reflector) : Prop :=
  (∃ ms, ms.length = 26 ∧ refl.mappings = ALPHABET.zip ms) ∧
  ∀ p ∈ refl.mappings, dictLookup refl.mappings p.2 = some p.1

/-- Every rotor's `rotations` counter equals 1 (the invariant that machine
operation maintains). -/
@[reducible] def AllOnes (rotors : List Rotor) : Prop :=
  ∀ r ∈ rotors, r.rotations = 1

/-- The rotor whose `rotations` the stepping loop consults at position `t` of
the cascade: the loop's `prev` for `t = 0`, otherwise element `t-1` of the
already-updated list. -/
def prevAt (prev : Rotor) (l : List Rotor) : Nat → Rotor
  | 0 => prev
  | t + 1 => (l[t]?).getD prev

/-- A 26-character wiring string that is not a permutation of the alphabet. -/
def badWiring : List Char := List.replicate 26 'A'

/-- A rotor built from the identity wiring at offset 0. -/
def idRotor : Rotor := Rotor.init ALPHABET 0

/-- The reflector dict for the involutive mapping string Z..A
(`A` pairs with `Z`, `B` with `Y`, and so on). -/
def reflZ : Reflector := ⟨ALPHABET.zip ALPHABET.reverse⟩

/-- A one-rotor machine used as a concrete witness input. -/
def mach1 : Machine := ⟨[idRotor], reflZ⟩

/-- A three-rotor machine (all rotors at initial offset 0) used as a concrete
witness input. -/
def machC2 : Machine := ⟨[idRotor, idRotor, idRotor], reflZ⟩

/-! Helper lemmas about `dictLookup`, `pyIndex` and `rotList`. -/

theorem dictLookup_zip_none {a : List Char} {k : Char} (h : k ∉ a) :
    ∀ b : List Char, dictLookup (a.zip b) k = none := by
  induction a with
  | nil => intro b; rfl
  | cons x a' ih =>
    intro b
    cases b with
    | nil => rfl
    | cons y b' =>
      have hx : ¬ (x = k) := fun e => h (by simp [e])
      have h' : k ∉ a' := fun hk => h (List.mem_cons_of_mem _ hk)
      rw [List.zip_cons_cons]
      unfold dictLookup
      rw [ih h']
      simp [hx]

theorem dictLookup_zip_get {a : List Char} (ha : a.Nodup) :
    ∀ {b : List Char} {t : Nat} (hta : t < a.length) (htb : t < b.length),
      dictLookup (a.zip b) a[t] = some b[t] := by
  induction a with
  | nil => intro b t hta _; exact absurd hta (by simp)
  | cons x a' ih =>
    intro b t hta htb
    cases b with
    | nil => exact absurd htb (by simp)
    | cons y b' =>
      rw [List.nodup_cons] at ha
      cases t with
      | zero =>
        have hn : dictLookup (a'.zip b') x = none := dictLookup_zip_none ha.1 b'
        rw [List.zip_cons_cons]
        simp only [List.getElem_cons_zero]
        unfold dictLookup
        rw [hn]
        simp
      | succ t' =>
        have h1 : t' < a'.length := by simpa using hta
        have h2 : t' < b'.length := by simpa using htb
        have hr := ih ha.2 h1 h2
        rw [List.zip_cons_cons]
        simp only [List.getElem_cons_succ]
        unfold dictLookup
        rw [hr]

theorem dictLookup_mem : ∀ {d : List (Char × Char)} {k v : Char},
    dictLookup d k = some v → (k, v) ∈ d := by
  intro d
  induction d with
  | nil => intro k v h; exact absurd h (by simp [dictLookup])
  | cons p rest ih =>
    intro k v h
    obtain ⟨p1, p2⟩ := p
    unfold dictLookup at h
    cases hrest : dictLookup rest k with
    | some v' =>
      rw [hrest] at h
      cases h
      exact List.mem_cons_of_mem _ (ih hrest)
    | none =>
      rw [hrest] at h
      by_cases hp : p1 = k
      · rw [if_pos hp] at h
        have hv : p2 = v := Option.some.inj h
        rw [hp, hv]
        exact List.mem_cons_self _ _
      · rw [if_neg hp] at h
        cases h

theorem dictLookup_zip_of_mem {a : List Char} (ha : a.Nodup) :
    ∀ {b : List Char} {k v : Char}, (k, v) ∈ a.zip b →
      dictLookup (a.zip b) k = some v := by
  induction a with
  | nil => intro b k v h; exact absurd h (by simp)
  | cons x a' ih =>
    intro b k v h
    cases b with
    | nil => exact absurd h (by simp)
    | cons y b' =>
      rw [List.nodup_cons] at ha
      rw [List.zip_cons_cons, List.mem_cons] at h
      rw [List.zip_cons_cons]
      unfold dictLookup
      cases h with
      | inl h =>
        obtain ⟨hk, hv⟩ := Prod.mk.injEq .. ▸ h
        subst hk
        subst hv
        rw [dictLookup_zip_none ha.1 b']
        simp
      | inr h =>
        rw [ih ha.2 h]

theorem mem_zip_get {a : List Char} :
    ∀ {b : List Char} {t : Nat} (hta : t < a.length) (htb : t < b.length),
      (a[t], b[t]) ∈ a.zip b := by
  induction a with
  | nil => intro b t hta _; exact absurd hta (by simp)
  | cons x a' ih =>
    intro b t hta htb
    cases b with
    | nil => exact absurd htb (by simp)
    | cons y b' =>
      cases t with
      | zero => simp
      | succ t' =>
        have h1 : t' < a'.length := by simpa using hta
        have h2 : t' < b'.length := by simpa using htb
        simp only [List.zip_cons_cons, List.getElem_cons_succ, List.mem_cons]
        exact Or.inr (ih h1 h2)

theorem mem_zip_iff_get {a : List Char} :
    ∀ {b : List Char} {p : Char × Char}, p ∈ a.zip b →
      ∃ (t : Nat) (hta : t < a.length) (htb : t < b.length),
        a[t] = p.1 ∧ b[t] = p.2 := by
  induction a with
  | nil => intro b p h; exact absurd h (by simp)
  | cons x a' ih =>
    intro b p h
    cases b with
    | nil => exact absurd h (by simp)
    | cons y b' =>
      rw [List.zip_cons_cons, List.mem_cons] at h
      cases h with
      | inl h =>
        subst h
        exact ⟨0, by simp, by simp, by simp, by simp⟩
      | inr h =>
        obtain ⟨t, hta, htb, h1, h2⟩ := ih h
        exact ⟨t + 1, by simpa using hta, by simpa using htb, by simpa using h1,
          by simpa using h2⟩

theorem zip_mem_left {a b : List Char} {p : Char × Char} (h : p ∈ a.zip b) :
    p.1 ∈ a := by
  obtain ⟨t, hta, _, h1, _⟩ := mem_zip_iff_get h
  exact h1 ▸ List.getElem_mem hta

theorem zip_mem_right {a b : List Char} {p : Char × Char} (h : p ∈ a.zip b) :
    p.2 ∈ b := by
  obtain ⟨t, _, htb, _, h2⟩ := mem_zip_iff_get h
  exact h2 ▸ List.getElem_mem htb

theorem pyIndex_get {l : List Char} (hl : l.Nodup) :
    ∀ {t : Nat} (ht : t < l.length), pyIndex l l[t] = some t := by
  induction l with
  | nil => intro t ht; exact absurd ht (by simp)
  | cons c rest ih =>
    intro t ht
    rw [List.nodup_cons] at hl
    cases t with
    | zero => simp [pyIndex]
    | succ t' =>
      have h1 : t' < rest.length := by simpa using ht
      have hne : ¬ (c = rest[t']) := by
        intro e
        exact hl.1 (e ▸ List.getElem_mem h1)
      simp only [List.getElem_cons_succ]
      unfold pyIndex
      rw [if_neg hne, ih hl.2 h1]
      rfl

theorem pyIndex_some : ∀ {l : List Char} {k : Char} {i : Nat},
    pyIndex l k = some i → ∃ hi : i < l.length, l[i] = k := by
  intro l
  induction l with
  | nil => intro k i h; exact absurd h (by simp [pyIndex])
  | cons c rest ih =>
    intro k i h
    unfold pyIndex at h
    by_cases hc : c = k
    · rw [if_pos hc] at h
      cases h
      exact ⟨by simp, hc⟩
    · rw [if_neg hc] at h
      cases hrest : pyIndex rest k with
      | none => rw [hrest] at h; cases h
      | some i' =>
        rw [hrest] at h
        cases h
        obtain ⟨hi', hget⟩ := ih hrest
        exact ⟨by simpa using hi', by simpa using hget⟩

theorem pyIndex_of_mem : ∀ {l : List Char} {k : Char}, k ∈ l →
    ∃ i, pyIndex l k = some i := by
  intro l
  induction l with
  | nil => intro k h; exact absurd h (by simp)
  | cons c rest ih =>
    intro k h
    by_cases hc : c = k
    · exact ⟨0, by simp [pyIndex, hc]⟩
    · have hk : k ∈ rest := by
        rcases List.mem_cons.mp h with h1 | h1
        · exact absurd h1.symm hc
        · exact h1
      obtain ⟨i, hi⟩ := ih hk
      exact ⟨i + 1, by simp [pyIndex, hc, hi]⟩

theorem rotList_perm (n : Nat) (l : List Char) : (rotList n l).Perm l := by
  unfold rotList
  refine (List.perm_append_comm).trans ?_
  rw [List.take_append_drop]

theorem rotList_length (n : Nat) (l : List Char) :
    (rotList n l).length = l.length := by
  unfold rotList
  rw [List.length_append, List.length_drop, List.length_take]
  omega

theorem rotList_one_rotList {l : List Char} {n : Nat} (h : n < l.length) :
    rotList 1 (rotList n l) = rotList (n + 1) l := by
  have hd : l.drop n = l[n] :: l.drop (n + 1) := List.drop_eq_getElem_cons h
  have ht : l.take (n + 1) = l.take n ++ [l[n]] := by
    rw [List.take_succ, List.getElem?_eq_getElem h]
    rfl
  unfold rotList
  rw [hd, List.cons_append]
  simp only [List.drop_succ_cons, List.drop_zero, List.take_succ_cons, List.take_zero]
  rw [List.append_assoc, ← ht]

theorem rotList_self (l : List Char) : rotList l.length l = l := by
  unfold rotList
  rw [List.drop_length, List.take_length]
  rfl

/-! Facts about lists that are permutations of the alphabet, and the
round-trip behaviour of `Rotor.translate`. -/

theorem ALPHABET_nodup : ALPHABET.Nodup := by decide

theorem ALPHABET_length : ALPHABET.length = 26 := rfl

theorem perm_length {l : List Char} (h : l.Perm ALPHABET) : l.length = 26 := by
  rw [h.length_eq]
  rfl

theorem perm_nodup {l : List Char} (h : l.Perm ALPHABET) : l.Nodup :=
  h.nodup_iff.mpr ALPHABET_nodup

/-- The shared shape of a `Rotor.translate` step: read the symbol at a contact
index of the rotated alphabet, look it up in a zipped dict, find the result's
index in the rotated alphabet.  Looking the result up in the oppositely-zipped
dict routes it back to the original contact index. -/
theorem stepLookup_pair {alph kk vv : List Char} (halph : alph.Perm ALPHABET)
    (hk : kk.Perm ALPHABET) (hv : vv.Perm ALPHABET) {i : Nat} (hi : i < 26) :
    ∃ j, j < 26 ∧
      ((alph[i]?).bind fun x => (dictLookup (kk.zip vv) x).bind fun x2 =>
        pyIndex alph x2) = some j ∧
      ((alph[j]?).bind fun x => (dictLookup (vv.zip kk) x).bind fun x2 =>
        pyIndex alph x2) = some i := by
  have hlenA : alph.length = 26 := perm_length halph
  have hndA : alph.Nodup := perm_nodup halph
  have hlenK : kk.length = 26 := perm_length hk
  have hndK : kk.Nodup := perm_nodup hk
  have hlenV : vv.length = 26 := perm_length hv
  have hndV : vv.Nodup := perm_nodup hv
  have hi' : i < alph.length := by omega
  have hx1 : alph[i]? = some alph[i] := List.getElem?_eq_getElem hi'
  have hxmem : alph[i] ∈ kk := hk.mem_iff.mpr (halph.mem_iff.mp (List.getElem_mem hi'))
  obtain ⟨t, ht, hxt⟩ := List.mem_iff_getElem.mp hxmem
  have htv : t < vv.length := by omega
  have hlk : dictLookup (kk.zip vv) alph[i] = some vv[t] := by
    rw [← hxt]
    exact dictLookup_zip_get hndK ht htv
  have hvmem : vv[t] ∈ alph := halph.mem_iff.mpr (hv.mem_iff.mp (List.getElem_mem htv))
  obtain ⟨j, hj⟩ := pyIndex_of_mem hvmem
  obtain ⟨hj', hgj⟩ := pyIndex_some hj
  refine ⟨j, by omega, ?_, ?_⟩
  · rw [hx1, Option.some_bind, hlk, Option.some_bind, hj]
  · have hx2 : alph[j]? = some alph[j] := List.getElem?_eq_getElem hj'
    have hlk2 : dictLookup (vv.zip kk) alph[j] = some alph[i] := by
      rw [hgj, ← hxt]
      exact dictLookup_zip_get hndV htv ht
    rw [hx2, Option.some_bind, hlk2, Option.some_bind, pyIndex_get hndA hi']

/-- The forward-then-backward round trip of `Rotor.translate` on any rotor
built from a permutation wiring, in any rotation state. -/
theorem translate_right_left {r : Rotor} (h : r.WF) {i : Nat} (hi : i < 26) :
    ∃ j, j < 26 ∧ r.translate i true = some j ∧ r.translate j false = some i := by
  obtain ⟨halph, b, w, hb, hw, hf, hr⟩ := h
  obtain ⟨j, hj, h1, h2⟩ := stepLookup_pair halph hb hw hi
  refine ⟨j, hj, ?_, ?_⟩
  · unfold Rotor.translate
    simp only [if_pos]
    unfold Rotor.encipher
    rw [hf]
    exact h1
  · unfold Rotor.translate
    simp only [Bool.false_eq_true, if_neg]
    unfold Rotor.decipher
    rw [hr]
    exact h2

/-- The backward-then-forward round trip of `Rotor.translate`. -/
theorem translate_left_right {r : Rotor} (h : r.WF) {i : Nat} (hi : i < 26) :
    ∃ j, j < 26 ∧ r.translate i false = some j ∧ r.translate j true = some i := by
  obtain ⟨halph, b, w, hb, hw, hf, hr⟩ := h
  obtain ⟨j, hj, h1, h2⟩ := stepLookup_pair halph hw hb hi
  refine ⟨j, hj, ?_, ?_⟩
  · unfold Rotor.translate
    simp only [Bool.false_eq_true, if_neg]
    unfold Rotor.decipher
    rw [hr]
    exact h1
  · unfold Rotor.translate
    simp only [if_pos]
    unfold Rotor.encipher
    rw [hf]
    exact h2

/-- A rotor freshly built from a permutation wiring string is well formed. -/
theorem WF_init {mappings : List Char} (h : mappings.Perm ALPHABET) (offset : Nat) :
    (Rotor.init mappings offset).WF := by
  refine ⟨?_, rotList offset ALPHABET, mappings, rotList_perm _ _, h, rfl, rfl⟩
  exact rotList_perm offset ALPHABET

/-- Rotating preserves rotor well-formedness. -/
theorem WF_rotate {r : Rotor} (h : r.WF) (n : Nat) : (r.rotate n).WF := by
  obtain ⟨halph, b, w, hb, hw, hf, hr⟩ := h
  exact ⟨(rotList_perm n r.alphabet).trans halph, b, w, hb, hw, hf, hr⟩

theorem reset_reset (r : Rotor) : r.reset.reset = r.reset := rfl

theorem rotate_reset (r : Rotor) (n : Nat) : (r.rotate n).reset = r.reset := rfl

theorem init_reset (mappings : List Char) (offset : Nat) :
    (Rotor.init mappings offset).reset = Rotor.init mappings offset := rfl

/-! Reflector construction and the involution property. -/

theorem involutionCheck_ok {d : List (Char × Char)} :
    ∀ {l : List (Char × Char)}, involutionCheck d l = Except.ok () ↔
      ∀ p ∈ l, dictLookup d p.2 = some p.1 := by
  intro l
  induction l with
  | nil => simp [involutionCheck]
  | cons p rest ih =>
    obtain ⟨x, y⟩ := p
    constructor
    · intro h q hq
      unfold involutionCheck at h
      cases hdy : dictLookup d y with
      | none => rw [hdy] at h; cases h
      | some z =>
        rw [hdy] at h
        dsimp only at h
        by_cases hxz : x = z
        · rw [if_pos hxz] at h
          rcases List.mem_cons.mp hq with h1 | h1
          · rw [h1]
            rw [hdy, hxz]
          · exact (ih.mp h) q h1
        · rw [if_neg hxz] at h
          cases h
    · intro h
      unfold involutionCheck
      have hy : dictLookup d y = some x := h (x, y) (List.mem_cons_self _ _)
      rw [hy]
      dsimp only
      rw [if_pos rfl]
      exact ih.mpr fun q hq => h q (List.mem_cons_of_mem _ hq)

theorem involutionCheck_cases {d : List (Char × Char)} :
    ∀ {l : List (Char × Char)}, (∀ p ∈ l, ∃ v, dictLookup d p.2 = some v) →
      involutionCheck d l = Except.ok () ∨
      ∃ x y, involutionCheck d l = Except.error (valueErrorMsg x y) ∧ (x, y) ∈ l ∧
        dictLookup d y ≠ some x := by
  intro l
  induction l with
  | nil => intro _; left; rfl
  | cons p rest ih =>
    intro hkeys
    obtain ⟨x, y⟩ := p
    obtain ⟨v, hv⟩ := hkeys (x, y) (List.mem_cons_self _ _)
    by_cases hxv : x = v
    · have hrest := ih fun q hq => hkeys q (List.mem_cons_of_mem _ hq)
      cases hrest with
      | inl hok =>
        left
        unfold involutionCheck
        rw [hv]
        dsimp only
        rw [if_pos hxv]
        exact hok
      | inr herr =>
        obtain ⟨a, b, he, hm, hne⟩ := herr
        right
        refine ⟨a, b, ?_, List.mem_cons_of_mem _ hm, hne⟩
        unfold involutionCheck
        rw [hv]
        dsimp only
        rw [if_pos hxv]
        exact he
    · right
      refine ⟨x, y, ?_, List.mem_cons_self _ _, ?_⟩
      · unfold involutionCheck
        rw [hv]
        dsimp only
        rw [if_neg hxv]
      · rw [hv]
        intro he
        exact hxv (Option.some.inj he).symm

theorem reflector_init_ok {ms : List Char} {refl : Reflector} :
    Reflector.init ms = Except.ok refl ↔
      (involutionCheck (ALPHABET.zip ms) (ALPHABET.zip ms) = Except.ok () ∧
        refl = ⟨ALPHABET.zip ms⟩) := by
  unfold Reflector.init
  dsimp only
  cases hc : involutionCheck (ALPHABET.zip ms) (ALPHABET.zip ms) with
  | ok u =>
    cases u
    dsimp only
    constructor
    · intro he
      exact ⟨rfl, (Except.ok.inj he).symm⟩
    · intro he
      rw [he.2]
  | error e =>
    dsimp only
    constructor
    · intro he
      exact Except.noConfusion he
    · intro he
      exact Except.noConfusion he.1

theorem reflector_init_error {ms : List Char} {e : String} :
    Reflector.init ms = Except.error e ↔
      involutionCheck (ALPHABET.zip ms) (ALPHABET.zip ms) = Except.error e := by
  unfold Reflector.init
  dsimp only
  cases hc : involutionCheck (ALPHABET.zip ms) (ALPHABET.zip ms) with
  | ok u =>
    cases u
    dsimp only
    constructor
    · intro he
      exact Except.noConfusion he
    · intro he
      exact Except.noConfusion he
  | error e' =>
    dsimp only
    constructor
    · intro h
      rw [Except.error.inj h]
    · intro h
      rw [Except.error.inj h]

/-- Every key of the reflector dict zipped from a full-length mapping string
looks up successfully. -/
theorem zip_keys_lookup {ms : List Char} (hlen : ms.length = 26) {k : Char}
    (hk : k ∈ ALPHABET) : ∃ v, dictLookup (ALPHABET.zip ms) k = some v := by
  obtain ⟨t, ht, hgt⟩ := List.mem_iff_getElem.mp hk
  have htm : t < ms.length := by
    have : ALPHABET.length = 26 := rfl
    omega
  exact ⟨ms[t], hgt ▸ dictLookup_zip_get ALPHABET_nodup ht htm⟩

theorem WF_of_reflector_init {ms : List Char} {refl : Reflector}
    (hlen : ms.length = 26) (h : Reflector.init ms = Except.ok refl) :
    refl.WF := by
  obtain ⟨hok, hrefl⟩ := reflector_init_ok.mp h
  subst hrefl
  exact ⟨⟨ms, hlen, rfl⟩, involutionCheck_ok.mp hok⟩

/-- Reflecting the symbol at contact index `j` produces a symbol whose
alphabet index reflects back to `j`. -/
theorem reflect_pair {refl : Reflector} (h : refl.WF) {j : Nat}
    (hj : j < ALPHABET.length) :
    ∃ y j2, j2 < 26 ∧ refl.reflect ALPHABET[j] = some y ∧
      pyIndex ALPHABET y = some j2 ∧ refl.reflect y = some ALPHABET[j] := by
  obtain ⟨⟨ms, hlen, hmap⟩, hsym⟩ := h
  have h26 : ALPHABET.length = 26 := rfl
  have hjm : j < ms.length := by omega
  have h1 : refl.reflect ALPHABET[j] = some ms[j] := by
    unfold Reflector.reflect
    rw [hmap]
    exact dictLookup_zip_get ALPHABET_nodup hj hjm
  have hpair : (ALPHABET[j], ms[j]) ∈ refl.mappings := by
    rw [hmap]
    exact mem_zip_get hj hjm
  have h2 : dictLookup refl.mappings ms[j] = some ALPHABET[j] := hsym _ hpair
  have hymem : ms[j] ∈ ALPHABET := by
    have hm := dictLookup_mem h2
    rw [hmap] at hm
    exact zip_mem_left hm
  obtain ⟨j2, hj2⟩ := pyIndex_of_mem hymem
  obtain ⟨hj2', hg2⟩ := pyIndex_some hj2
  exact ⟨ms[j], j2, by omega, h1, hj2, h2⟩

/-! The forward and return passes through the rotor stack. -/

theorem fwd_bwd {rs : List Rotor} (hWF : ∀ r ∈ rs, r.WF) :
    ∀ {i : Nat}, i < 26 →
      ∃ j, j < 26 ∧ fwdPass rs i = some j ∧ bwdPass rs j = some i := by
  induction rs with
  | nil => intro i hi; exact ⟨i, hi, rfl, rfl⟩
  | cons r rest ih =>
    intro i hi
    obtain ⟨i1, hi1, h1, h2⟩ :=
      translate_right_left (hWF r (List.mem_cons_self _ _)) hi
    obtain ⟨j, hj, h3, h4⟩ :=
      ih (fun q hq => hWF q (List.mem_cons_of_mem _ hq)) hi1
    refine ⟨j, hj, ?_, ?_⟩
    · unfold fwdPass
      rw [h1, Option.some_bind]
      exact h3
    · unfold bwdPass
      rw [h4, Option.some_bind]
      exact h2

theorem bwd_fwd {rs : List Rotor} (hWF : ∀ r ∈ rs, r.WF) :
    ∀ {j : Nat}, j < 26 →
      ∃ i, i < 26 ∧ bwdPass rs j = some i ∧ fwdPass rs i = some j := by
  induction rs with
  | nil => intro j hj; exact ⟨j, hj, rfl, rfl⟩
  | cons r rest ih =>
    intro j hj
    obtain ⟨k1, hk1, h3, h4⟩ :=
      ih (fun q hq => hWF q (List.mem_cons_of_mem _ hq)) hj
    obtain ⟨k, hk, h1, h2⟩ :=
      translate_left_right (hWF r (List.mem_cons_self _ _)) hk1
    refine ⟨k, hk, ?_, ?_⟩
    · unfold bwdPass
      rw [h3, Option.some_bind]
      exact h1
    · unfold fwdPass
      rw [h2, Option.some_bind]
      exact h4

/-! The stepping state machine. -/

theorem cascade_WF {rest : List Rotor} :
    ∀ {prev : Rotor} {idx : Nat}, (∀ r ∈ rest, r.WF) →
      ∀ r ∈ cascade prev rest idx, r.WF := by
  induction rest with
  | nil => intro prev idx _ r hr; cases hr
  | cons q rs ih =>
    intro prev idx h r hr
    unfold cascade at hr
    rcases List.mem_cons.mp hr with h1 | h1
    · rw [h1]
      by_cases hc : prev.rotations % (ALPHABET.length * idx) = 0
      · rw [if_pos hc]
        exact WF_rotate (h q (List.mem_cons_self _ _)) 1
      · rw [if_neg hc]
        exact h q (List.mem_cons_self _ _)
    · exact ih (fun q' hq' => h q' (List.mem_cons_of_mem _ hq')) r h1

theorem cascade_length {rest : List Rotor} :
    ∀ {prev : Rotor} {idx : Nat}, (cascade prev rest idx).length = rest.length := by
  induction rest with
  | nil => intro prev idx; rfl
  | cons q rs ih =>
    intro prev idx
    unfold cascade
    simp only [List.length_cons]
    rw [ih]

theorem cascade_reset {rest : List Rotor} :
    ∀ {prev : Rotor} {idx : Nat},
      (cascade prev rest idx).map Rotor.reset = rest.map Rotor.reset := by
  induction rest with
  | nil => intro prev idx; rfl
  | cons q rs ih =>
    intro prev idx
    unfold cascade
    simp only [List.map_cons]
    rw [ih]
    by_cases hc : prev.rotations % (ALPHABET.length * idx) = 0
    · rw [if_pos hc, rotate_reset]
    · rw [if_neg hc]

theorem stepRotors_shape (r0 : Rotor) (rest : List Rotor) :
    stepRotors (r0 :: rest) = some ((r0.rotate 1) :: cascade (r0.rotate 1) rest 1) :=
  rfl

theorem stepRotors_some {rs : List Rotor} (h : rs ≠ []) :
    ∃ rs', stepRotors rs = some rs' := by
  cases rs with
  | nil => exact absurd rfl h
  | cons r0 rest => exact ⟨_, stepRotors_shape r0 rest⟩

theorem stepRotors_WF {rs rs' : List Rotor} (hWF : ∀ r ∈ rs, r.WF)
    (h : stepRotors rs = some rs') : ∀ r ∈ rs', r.WF := by
  cases rs with
  | nil => cases h
  | cons r0 rest =>
    rw [stepRotors_shape] at h
    cases h
    intro r hr
    rcases List.mem_cons.mp hr with h1 | h1
    · rw [h1]
      exact WF_rotate (hWF r0 (List.mem_cons_self _ _)) 1
    · exact cascade_WF (fun q hq => hWF q (List.mem_cons_of_mem _ hq)) r h1

theorem stepRotors_length {rs rs' : List Rotor} (h : stepRotors rs = some rs') :
    rs'.length = rs.length := by
  cases rs with
  | nil => cases h
  | cons r0 rest =>
    rw [stepRotors_shape] at h
    cases h
    simp only [List.length_cons]
    rw [cascade_length]

theorem stepRotors_reset {rs rs' : List Rotor} (h : stepRotors rs = some rs') :
    rs'.map Rotor.reset = rs.map Rotor.reset := by
  cases rs with
  | nil => cases h
  | cons r0 rest =>
    rw [stepRotors_shape] at h
    cases h
    simp only [List.map_cons]
    rw [cascade_reset, rotate_reset]

theorem cascade_allones {rest : List Rotor} :
    ∀ {prev : Rotor} {idx : Nat}, 1 ≤ idx → prev.rotations = 1 → AllOnes rest →
      cascade prev rest idx = rest := by
  induction rest with
  | nil => intro prev idx _ _ _; rfl
  | cons q rs ih =>
    intro prev idx hidx hprev hall
    unfold cascade
    have hlt : 1 < ALPHABET.length * idx := by
      have : ALPHABET.length = 26 := rfl
      calc 1 < 26 * 1 := by omega
        _ ≤ 26 * idx := Nat.mul_le_mul_left 26 hidx
        _ = ALPHABET.length * idx := by rw [this]
    have hc : ¬ (prev.rotations % (ALPHABET.length * idx) = 0) := by
      rw [hprev, Nat.mod_eq_of_lt hlt]
      omega
    rw [if_neg hc]
    have hq : q.rotations = 1 := hall q (List.mem_cons_self _ _)
    show q :: cascade q rs (idx + 1) = q :: rs
    rw [ih (by omega) hq fun q' hq' => hall q' (List.mem_cons_of_mem _ hq')]

/-- With every rotation counter equal to 1 — the invariant machine operation
maintains — stepping rotates only the first rotor. -/
theorem step_allones {r0 : Rotor} {rest : List Rotor} (h : AllOnes (r0 :: rest)) :
    stepRotors (r0 :: rest) = some ((r0.rotate 1) :: rest) ∧
      AllOnes ((r0.rotate 1) :: rest) := by
  have h0 : (r0.rotate 1).rotations = 1 := rfl
  have hrest : AllOnes rest := fun q hq => h q (List.mem_cons_of_mem _ hq)
  constructor
  · rw [stepRotors_shape, cascade_allones (by omega) h0 hrest]
  · intro q hq
    rcases List.mem_cons.mp hq with h1 | h1
    · rw [h1]
      exact h0
    · exact hrest q h1

/-! Machine-level lemmas. -/

theorem pyUpper_mem {c : Char} (h : c ∈ ALPHABET) : pyUpper c = c := by
  have hall : ∀ c ∈ ALPHABET, pyUpper c = c := by decide
  exact hall c h

/-- Unravelling a successful `encipher_character`: either the uppercased
character fell outside the alphabet and nothing happened, or it was
enciphered and the rotors stepped. -/
theorem encipher_character_cases {m : Machine} {c out : Char} {m' : Machine}
    (h : m.encipher_character c = some (out, m')) :
    (pyUpper c ∉ ALPHABET ∧ out = pyUpper c ∧ m' = m) ∨
    (pyUpper c ∈ ALPHABET ∧ out ∈ ALPHABET ∧ m'.reflector = m.reflector ∧
      stepRotors m.rotors = some m'.rotors) := by
  unfold Machine.encipher_character at h
  by_cases hc : pyUpper c ∈ ALPHABET
  · right
    rw [if_pos hc] at h
    simp only [Option.bind_eq_some, Option.map_eq_some'] at h
    obtain ⟨ci, hci, ci1, hci1, c1, hc1, y, hy, ci2, hci2, ci3, hci3, rs2, hrs2,
      ⟨out', hout', heq⟩⟩ := h
    obtain ⟨h1, h2⟩ := Prod.mk.injEq .. ▸ heq
    subst h1
    subst h2
    refine ⟨hc, ?_, rfl, hrs2⟩
    obtain ⟨hlt, hg⟩ := List.getElem?_eq_some.mp hout'
    exact hg ▸ List.getElem_mem hlt
  · left
    rw [if_neg hc] at h
    obtain ⟨h1, h2⟩ := Prod.mk.injEq .. ▸ (Option.some.inj h)
    exact ⟨hc, h1.symm, h2.symm⟩

/-- At any fixed well-formed machine state, enciphering an alphabet character
yields an alphabet character that the same state enciphers back to the
original — and in both runs the rotors step to the same successor state. -/
theorem encipher_character_pair {rs : List Rotor} {refl : Reflector} {c : Char}
    (hWF : ∀ r ∈ rs, r.WF) (hne : rs ≠ []) (hrefl : refl.WF) (hc : c ∈ ALPHABET) :
    ∃ out rs', out ∈ ALPHABET ∧ stepRotors rs = some rs' ∧
      Machine.encipher_character ⟨rs, refl⟩ c = some (out, ⟨rs', refl⟩) ∧
      Machine.encipher_character ⟨rs, refl⟩ out = some (c, ⟨rs', refl⟩) := by
  have h26 : ALPHABET.length = 26 := rfl
  have hup : pyUpper c = c := pyUpper_mem hc
  obtain ⟨i, hi⟩ := pyIndex_of_mem hc
  obtain ⟨hi', hgi⟩ := pyIndex_some hi
  have hi26 : i < 26 := by omega
  obtain ⟨j, hj26, hfwd, hbwd⟩ := fwd_bwd hWF hi26
  have hj' : j < ALPHABET.length := by omega
  obtain ⟨y, j2, hj2_26, hrefl1, hyidx, hrefl2⟩ := reflect_pair hrefl hj'
  obtain ⟨hj2', hgj2⟩ := pyIndex_some hyidx
  obtain ⟨k, hk26, hbwd2, hfwd2⟩ := bwd_fwd hWF hj2_26
  obtain ⟨rs', hstep⟩ := stepRotors_some hne
  have hk' : k < ALPHABET.length := by omega
  have hgj : ALPHABET[j]? = some ALPHABET[j] := List.getElem?_eq_getElem hj'
  have hgk : ALPHABET[k]? = some ALPHABET[k] := List.getElem?_eq_getElem hk'
  have hgj2' : ALPHABET[j2]? = some ALPHABET[j2] := List.getElem?_eq_getElem hj2'
  have hgi' : ALPHABET[i]? = some ALPHABET[i] := List.getElem?_eq_getElem hi'
  have houtmem : ALPHABET[k] ∈ ALPHABET := List.getElem_mem hk'
  refine ⟨ALPHABET[k], rs', houtmem, hstep, ?_, ?_⟩
  · unfold Machine.encipher_character
    simp only [hup]
    rw [if_pos hc]
    rw [hi, Option.some_bind, hfwd, Option.some_bind, hgj, Option.some_bind]
    rw [hrefl1, Option.some_bind, hyidx, Option.some_bind]
    rw [hbwd2, Option.some_bind, hstep, Option.some_bind, hgk]
    rfl
  · unfold Machine.encipher_character
    simp only [pyUpper_mem houtmem]
    rw [if_pos houtmem]
    rw [pyIndex_get ALPHABET_nodup hk', Option.some_bind]
    rw [hfwd2, Option.some_bind, hgj2', Option.some_bind]
    rw [hgj2, hrefl2, Option.some_bind, pyIndex_get ALPHABET_nodup hj',
      Option.some_bind]
    rw [hbwd, Option.some_bind, hstep, Option.some_bind, hgi']
    rw [hgi]
    rfl

/-- Enciphering an all-alphabet text from a well-formed state succeeds, and
the very same starting state enciphers the ciphertext back to the plaintext,
finishing in the same rotor state; the rotors' reset images are unchanged. -/
theorem encipher_pair {refl : Reflector} (hrefl : refl.WF) :
    ∀ (T : List Char) (rs : List Rotor), (∀ r ∈ rs, r.WF) → rs ≠ [] →
      (∀ c ∈ T, c ∈ ALPHABET) →
      ∃ CT rsF, (∀ c ∈ CT, c ∈ ALPHABET) ∧
        Machine.encipher ⟨rs, refl⟩ T = some (CT, ⟨rsF, refl⟩) ∧
        Machine.encipher ⟨rs, refl⟩ CT = some (T, ⟨rsF, refl⟩) ∧
        rsF.map Rotor.reset = rs.map Rotor.reset := by
  intro T
  induction T with
  | nil => intro rs _ _ _; exact ⟨[], rs, by simp, rfl, rfl, rfl⟩
  | cons c cs ih =>
    intro rs hWF hne hT
    have hc : c ∈ ALPHABET := hT c (List.mem_cons_self _ _)
    obtain ⟨out, rs', hout, hstep, he1, he2⟩ :=
      encipher_character_pair hWF hne hrefl hc
    have hWF' : ∀ r ∈ rs', r.WF := stepRotors_WF hWF hstep
    have hne' : rs' ≠ [] := by
      intro hnil
      apply hne
      have hlen := stepRotors_length hstep
      rw [hnil] at hlen
      exact List.eq_nil_of_length_eq_zero hlen.symm
    obtain ⟨CS, rsF, hCS, h1, h2, h3⟩ :=
      ih rs' hWF' hne' fun c' hc' => hT c' (List.mem_cons_of_mem _ hc')
    refine ⟨out :: CS, rsF, ?_, ?_, ?_, ?_⟩
    · intro c' hc'
      rcases List.mem_cons.mp hc' with h | h
      · rw [h]; exact hout
      · exact hCS c' h
    · unfold Machine.encipher
      rw [he1]
      dsimp only
      rw [h1]
    · unfold Machine.encipher
      rw [he2]
      dsimp only
      rw [h2]
    · rw [h3, stepRotors_reset hstep]

/-- Enciphering from a state whose rotation counters are all 1 advances only
the first rotor, once per alphabet character. -/
theorem encipher_allones {refl : Reflector} (hrefl : refl.WF) :
    ∀ (T : List Char) (r0 : Rotor) (rest : List Rotor),
      (∀ r ∈ r0 :: rest, r.WF) → AllOnes (r0 :: rest) →
      (∀ c ∈ T, c ∈ ALPHABET) →
      ∃ CT, Machine.encipher ⟨r0 :: rest, refl⟩ T =
        some (CT, ⟨(fun r => Rotor.rotate r 1)^[T.length] r0 :: rest, refl⟩) := by
  intro T
  induction T with
  | nil =>
    intro r0 rest _ _ _
    exact ⟨[], by rw [List.length_nil, Function.iterate_zero_apply]; rfl⟩
  | cons c cs ih =>
    intro r0 rest hWF hall hT
    have hc : c ∈ ALPHABET := hT c (List.mem_cons_self _ _)
    obtain ⟨out, rs', hout, hstep, he1, he2⟩ :=
      encipher_character_pair hWF (by simp) hrefl hc
    obtain ⟨hstep2, hall2⟩ := step_allones hall
    have hrs' : rs' = (r0.rotate 1) :: rest := by
      rw [hstep] at hstep2
      exact Option.some.inj hstep2
    subst hrs'
    have hWF' : ∀ r ∈ (r0.rotate 1) :: rest, r.WF :=
      stepRotors_WF hWF hstep
    obtain ⟨CS, hCS⟩ :=
      ih (r0.rotate 1) rest hWF' hall2 fun c' hc' => hT c' (List.mem_cons_of_mem _ hc')
    refine ⟨out :: CS, ?_⟩
    unfold Machine.encipher
    rw [he1]
    dsimp only
    rw [hCS, List.length_cons, Function.iterate_succ_apply]

/-- A successful `encipher` run started with all rotation counters equal to 1
keeps them equal to 1 and never touches any rotor beyond the first. -/
theorem encipher_preserves_allones :
    ∀ (T : List Char) (m : Machine) (p : List Char × Machine),
      AllOnes m.rotors → Machine.encipher m T = some p →
      AllOnes p.2.rotors ∧ p.2.rotors.drop 1 = m.rotors.drop 1 := by
  intro T
  induction T with
  | nil =>
    intro m p _ h
    have := Option.some.inj h
    rw [← this]
    exact ⟨by assumption, rfl⟩
  | cons c cs ih =>
    intro m p hall h
    unfold Machine.encipher at h
    cases hx : m.encipher_character c with
    | none => rw [hx] at h; cases h
    | some q =>
      obtain ⟨c2, m2⟩ := q
      rw [hx] at h
      dsimp only at h
      cases hy : Machine.encipher m2 cs with
      | none => rw [hy] at h; cases h
      | some p' =>
        rw [hy] at h
        dsimp only at h
        have hp := Option.some.inj h
        have hstate : AllOnes m2.rotors ∧ m2.rotors.drop 1 = m.rotors.drop 1 := by
          rcases encipher_character_cases hx with ⟨_, _, hm⟩ | ⟨_, _, _, hstep⟩
          · rw [hm]
            exact ⟨hall, rfl⟩
          · cases hrs : m.rotors with
            | nil => rw [hrs] at hstep; cases hstep
            | cons r0 rest =>
              rw [hrs] at hstep
              have hall0 : AllOnes (r0 :: rest) := hrs ▸ hall
              obtain ⟨hstep2, hall2⟩ := step_allones hall0
              rw [hstep] at hstep2
              have hshape := Option.some.inj hstep2
              rw [hshape]
              exact ⟨hall2, rfl⟩
        obtain ⟨hall2, hdrop2⟩ := hstate
        obtain ⟨hall3, hdrop3⟩ := ih m2 p' hall2 hy
        rw [← hp]
        exact ⟨hall3, by rw [hdrop3, hdrop2]⟩

theorem map_pyUpper_id {T : List Char} (h : ∀ c ∈ T, c ∈ ALPHABET) :
    T.map pyUpper = T := by
  induction T with
  | nil => rfl
  | cons c cs ih =>
    rw [List.map_cons, pyUpper_mem (h c (List.mem_cons_self _ _)),
      ih fun c' hc' => h c' (List.mem_cons_of_mem _ hc')]

/-! Positional characterisation of the stepping loop, for the turnover
condition as the claim states it. -/

theorem prevAt_cons_succ {prev r2 : Rotor} {inner : List Rotor} {t : Nat}
    (ht : t < inner.length) : prevAt prev (r2 :: inner) (t + 1) = prevAt r2 inner t := by
  cases t with
  | zero =>
    show ((r2 :: inner)[0]?).getD prev = r2
    rw [List.getElem?_cons_zero]
    rfl
  | succ s =>
    have hs : s < inner.length := by omega
    show ((r2 :: inner)[s + 1]?).getD prev = (inner[s]?).getD r2
    rw [List.getElem?_cons_succ, List.getElem?_eq_getElem hs]
    rfl

theorem cons_getElem_prevAt {r0 : Rotor} {inner : List Rotor} {t : Nat}
    (ht : t < inner.length) : (r0 :: inner)[t]? = some (prevAt r0 inner t) := by
  cases t with
  | zero =>
    rw [List.getElem?_cons_zero]
    rfl
  | succ s =>
    have hs : s < inner.length := by omega
    rw [List.getElem?_cons_succ]
    show inner[s]? = some ((inner[s]?).getD r0)
    rw [List.getElem?_eq_getElem hs]
    rfl

theorem cascade_get :
    ∀ (rest : List Rotor) (prev : Rotor) (idx t : Nat), t < rest.length →
      ∃ r ri, rest[t]? = some r ∧ (cascade prev rest idx)[t]? = some ri ∧
        ri = if (prevAt prev (cascade prev rest idx) t).rotations %
               (ALPHABET.length * (idx + t)) = 0 then r.rotate 1 else r := by
  intro rest
  induction rest with
  | nil => intro prev idx t ht; exact absurd ht (by simp)
  | cons q rs ih =>
    intro prev idx t ht
    have hc : cascade prev (q :: rs) idx =
        (if prev.rotations % (ALPHABET.length * idx) = 0 then q.rotate 1 else q) ::
          cascade (if prev.rotations % (ALPHABET.length * idx) = 0 then q.rotate 1 else q)
            rs (idx + 1) := rfl
    cases t with
    | zero =>
      refine ⟨q, if prev.rotations % (ALPHABET.length * idx) = 0 then q.rotate 1 else q,
        by rw [List.getElem?_cons_zero], ?_, ?_⟩
      · rw [hc, List.getElem?_cons_zero]
      · show _ = if (prevAt prev (cascade prev (q :: rs) idx) 0).rotations %
          (ALPHABET.length * (idx + 0)) = 0 then q.rotate 1 else q
        rw [Nat.add_zero]
        rfl
    | succ t2 =>
      have ht2 : t2 < rs.length := by simpa using ht
      obtain ⟨r, ri, h1, h2, h3⟩ :=
        ih (if prev.rotations % (ALPHABET.length * idx) = 0 then q.rotate 1 else q)
          (idx + 1) t2 ht2
      refine ⟨r, ri, ?_, ?_, ?_⟩
      · rw [List.getElem?_cons_succ]
        exact h1
      · rw [hc, List.getElem?_cons_succ]
        exact h2
      · have hpa : prevAt prev (cascade prev (q :: rs) idx) (t2 + 1) =
            prevAt (if prev.rotations % (ALPHABET.length * idx) = 0 then q.rotate 1 else q)
              (cascade (if prev.rotations % (ALPHABET.length * idx) = 0
                then q.rotate 1 else q) rs (idx + 1)) t2 := by
          rw [hc]
          apply prevAt_cons_succ
          rw [cascade_length]
          exact ht2
        rw [hpa, show idx + (t2 + 1) = (idx + 1) + t2 from by omega]
        exact h3

/-- Positional description of a successful stepping pass: the first rotor is
rotated by 1 unconditionally; each later rotor at index `i` is rotated by 1
exactly when the already-updated rotor at index `i-1` has
`rotations % (26 * i) = 0`; nothing else changes. -/
theorem stepRotors_get {rs rs2 : List Rotor} (h : stepRotors rs = some rs2) :
    rs2.length = rs.length ∧
    rs2[0]? = (rs[0]?).map (fun r => r.rotate 1) ∧
    ∀ i, 1 ≤ i → i < rs.length →
      ∃ prevR r ri, rs2[i - 1]? = some prevR ∧ rs[i]? = some r ∧ rs2[i]? = some ri ∧
        ri = if prevR.rotations % (ALPHABET.length * i) = 0 then r.rotate 1 else r := by
  cases rs with
  | nil => cases h
  | cons r0 rest =>
    rw [stepRotors_shape] at h
    have hh := Option.some.inj h
    rw [← hh]
    refine ⟨?_, ?_, ?_⟩
    · simp only [List.length_cons]
      rw [cascade_length]
    · rw [List.getElem?_cons_zero, List.getElem?_cons_zero]
      rfl
    · intro i h1 h2
      obtain ⟨t, rfl⟩ : ∃ t, i = t + 1 := ⟨i - 1, by omega⟩
      have ht : t < rest.length := by simpa using h2
      obtain ⟨r, ri, hr, hri, heq⟩ := cascade_get rest (r0.rotate 1) 1 t ht
      have htinner : t < (cascade (r0.rotate 1) rest 1).length := by
        rw [cascade_length]
        exact ht
      refine ⟨prevAt (r0.rotate 1) (cascade (r0.rotate 1) rest 1) t, r, ri, ?_, ?_, ?_, ?_⟩
      · show ((r0.rotate 1) :: cascade (r0.rotate 1) rest 1)[t + 1 - 1]? = _
        rw [show t + 1 - 1 = t from by omega]
        exact cons_getElem_prevAt htinner
      · rw [List.getElem?_cons_succ]
        exact hr
      · rw [List.getElem?_cons_succ]
        exact hri
      · rw [heq, show (1 : Nat) + t = t + 1 from by omega]

/-! The claims. -/

/-- Claim C9: `Rotor.reset`, from any prior state, restores the
rotated-alphabet view to the canonical alphabet cyclically shifted by
`initial_offset`, and sets the rotation counter to 1 (not 0), so the first
turnover check after any reset sees rotation count 1. -/
theorem claim_C9 (r : Rotor) :
    (r.reset).alphabet = rotList r.initial_offset ALPHABET ∧
    (r.reset).rotations = 1 :=
  ⟨rfl, rfl⟩

/-- Claim C10: `Machine.reset` is idempotent — for every machine, resetting
twice leaves every rotor exactly as resetting once does. -/
theorem claim_C10 (m : Machine) : m.reset.reset = m.reset := by
  unfold Machine.reset
  dsimp only
  rw [List.map_map]
  have h : Rotor.reset ∘ Rotor.reset = Rotor.reset := funext reset_reset
  rw [h]

/-- Claim C6: a character whose uppercased form is not in the 26-letter
alphabet is emitted unchanged by `encipher_character` (and hence by
`encipher`), and the machine — every rotor's rotated alphabet and rotation
counter — is left exactly as it was.  (`pyUpper` models `str.upper` on the
ASCII range, which covers the digits, punctuation and whitespace the claim
speaks about.) -/
theorem claim_C6 (m : Machine) (c : Char) (h : pyUpper c ∉ ALPHABET) :
    m.encipher_character c = some (c, m) ∧ m.encipher [c] = some ([c], m) := by
  have hup : pyUpper c = c := by
    by_cases hlc : 'a' ≤ c ∧ c ≤ 'z'
    · exfalso
      apply h
      have h97 : 97 ≤ c.toNat := hlc.1
      have h122 : c.toNat ≤ 122 := hlc.2
      have hin : ∀ n, n < 123 → 97 ≤ n → Char.ofNat (n - 32) ∈ ALPHABET := by decide
      have hpy : pyUpper c = Char.ofNat (c.toNat - 32) := by
        unfold pyUpper
        rw [if_pos hlc]
      rw [hpy]
      exact hin c.toNat (by omega) h97
    · unfold pyUpper
      rw [if_neg hlc]
  have h1 : m.encipher_character c = some (c, m) := by
    unfold Machine.encipher_character
    rw [if_neg h, hup]
  refine ⟨h1, ?_⟩
  unfold Machine.encipher
  rw [h1]
  dsimp only
  rfl

/-- Witness for claim C6 at the concrete input `'#'` on `mach1`. -/
theorem claim_C6_witness :
    pyUpper '#' ∉ ALPHABET ∧
    (mach1.encipher_character '#' = some ('#', mach1) ∧
      mach1.encipher ['#'] = some (['#'], mach1)) :=
  ⟨by decide, claim_C6 mach1 '#' (by decide)⟩

/-- Claim C3: starting from a state in which every rotor's rotation counter
is 1 — which holds after construction and after every `reset()` — a
successful `encipher` run keeps every counter equal to 1 and leaves every
rotor beyond the first completely untouched, because the turnover condition
`rotations % (26 * i) == 0` is never satisfied while `rotations` is 1. -/
theorem claim_C3 (m : Machine) (T : List Char) (p : List Char × Machine)
    (h1 : AllOnes m.rotors) (h2 : m.encipher T = some p) :
    AllOnes p.2.rotors ∧ p.2.rotors.drop 1 = m.rotors.drop 1 ∧
    AllOnes (m.reset).rotors ∧
    (∀ w o, (Rotor.init w o).rotations = 1) ∧
    (∀ i, 1 ≤ i → 1 % (ALPHABET.length * i) ≠ 0) := by
  obtain ⟨ha, hd⟩ := encipher_preserves_allones T m p h1 h2
  refine ⟨ha, hd, ?_, fun w o => rfl, ?_⟩
  · intro r hr
    obtain ⟨r2, _, hr2⟩ := List.mem_map.mp hr
    rw [← hr2]
    rfl
  · intro i hi
    have hlt : 1 < ALPHABET.length * i := by
      have h26 : ALPHABET.length = 26 := rfl
      calc 1 < 26 * 1 := by omega
        _ ≤ 26 * i := Nat.mul_le_mul_left 26 hi
        _ = ALPHABET.length * i := by rw [h26]
    rw [Nat.mod_eq_of_lt hlt]
    omega

/-- Witness for claim C3 on `mach1` and the one-character text `"#"`. -/
theorem claim_C3_witness :
    AllOnes (['#'], mach1).2.rotors ∧
    (['#'], mach1).2.rotors.drop 1 = mach1.rotors.drop 1 ∧
    AllOnes (mach1.reset).rotors ∧
    (∀ w o, (Rotor.init w o).rotations = 1) ∧
    (∀ i, 1 ≤ i → 1 % (ALPHABET.length * i) ≠ 0) :=
  claim_C3 mach1 ['#'] (['#'], mach1) (by decide) (by decide)

/-- Claim C8: for every rotor built from a permutation wiring, in every
rotation state (`Rotor.WF`), and every contact index, following the rotor
forward and then backward (or backward and then forward) returns the original
contact index.  `Rotor.translate` itself is a pure function of the rotor — in
the source the method reads but never assigns rotor state, which the
embedding reflects in `translate` returning only the new contact index. -/
theorem claim_C8 (r : Rotor) (hWF : r.WF) (i : Nat) (hi : i < 26) :
    (∃ j, j < 26 ∧ r.translate i true = some j ∧ r.translate j false = some i) ∧
    (∃ j, j < 26 ∧ r.translate i false = some j ∧ r.translate j true = some i) :=
  ⟨translate_right_left hWF hi, translate_left_right hWF hi⟩

/-- Witness for claim C8 on the identity rotor at contact index 0. -/
theorem claim_C8_witness :
    (∃ j, j < 26 ∧ idRotor.translate 0 true = some j ∧
      idRotor.translate j false = some 0) ∧
    (∃ j, j < 26 ∧ idRotor.translate 0 false = some j ∧
      idRotor.translate j true = some 0) :=
  claim_C8 idRotor
    ⟨by decide, ALPHABET, ALPHABET, by decide, by decide, by decide, by decide⟩
    0 (by decide)

/-- Claim C7, counterexample: `Rotor.__init__` contains no validation at all,
so constructing a rotor from the non-permutation wiring `"AAA…A"` does not
fail — it succeeds and silently produces this fully-defined rotor. -/
theorem claim_C7_counterexample :
    Rotor.init badWiring 0 =
      ⟨0, ALPHABET, 1, ALPHABET.zip badWiring, badWiring.zip ALPHABET⟩ := by
  decide

/-- Claim C7, amended: constructing a Rotor from a wiring string that is not
a permutation of the alphabet does not fail; construction is total and never
validates its input, and the silently-built rotor can be inconsistent — for
the all-`'A'` wiring, `translate` is not invertible
(`1 → 0` going right but `0 → 25` coming back). -/
theorem claim_C7 :
    (∀ (mappings : List Char) (offset : Nat),
      Rotor.init mappings offset =
        ⟨offset, rotList offset ALPHABET, 1,
          (rotList offset ALPHABET).zip mappings,
          mappings.zip (rotList offset ALPHABET)⟩) ∧
    (Rotor.init badWiring 0).translate 1 true = some 0 ∧
    (Rotor.init badWiring 0).translate 0 false = some 25 :=
  ⟨fun mappings offset => rfl, by decide, by decide⟩

/-- Claim C5: over a 26-character mapping string drawn from A-Z, reflector
construction succeeds exactly when the mapping is an involution; on failure
the raised `ValueError` names an offending pair; and every successfully
constructed reflector satisfies `reflect (reflect x) = x` on all 26
symbols. -/
theorem claim_C5 (ms : List Char) (hlen : ms.length = 26)
    (hchars : ∀ c ∈ ms, c ∈ ALPHABET) :
    ((∃ refl, Reflector.init ms = Except.ok refl) ↔
      ∀ c ∈ ALPHABET, (dictLookup (ALPHABET.zip ms) c).bind
        (dictLookup (ALPHABET.zip ms)) = some c) ∧
    (∀ refl, Reflector.init ms = Except.ok refl →
      ∀ c ∈ ALPHABET, (refl.reflect c).bind refl.reflect = some c) ∧
    ((¬ ∀ c ∈ ALPHABET, (dictLookup (ALPHABET.zip ms) c).bind
        (dictLookup (ALPHABET.zip ms)) = some c) →
      ∃ x y, Reflector.init ms = Except.error (valueErrorMsg x y) ∧
        dictLookup (ALPHABET.zip ms) x = some y ∧
        dictLookup (ALPHABET.zip ms) y ≠ some x) := by
  have h26 : ALPHABET.length = 26 := rfl
  have hbridge : (∀ p ∈ ALPHABET.zip ms, dictLookup (ALPHABET.zip ms) p.2 = some p.1) ↔
      ∀ c ∈ ALPHABET, (dictLookup (ALPHABET.zip ms) c).bind
        (dictLookup (ALPHABET.zip ms)) = some c := by
    constructor
    · intro hp c hc
      obtain ⟨i, hi, hgi⟩ := List.mem_iff_getElem.mp hc
      have him : i < ms.length := by omega
      have hlk : dictLookup (ALPHABET.zip ms) c = some ms[i] := by
        rw [← hgi]
        exact dictLookup_zip_get ALPHABET_nodup hi him
      have hpair : (c, ms[i]) ∈ ALPHABET.zip ms := by
        rw [← hgi]
        exact mem_zip_get hi him
      rw [hlk, Option.some_bind]
      exact hp _ hpair
    · intro hInv p hp
      obtain ⟨i, hi, him, hg1, hg2⟩ := mem_zip_iff_get hp
      have hc : p.1 ∈ ALPHABET := by
        rw [← hg1]
        exact List.getElem_mem hi
      have hlk : dictLookup (ALPHABET.zip ms) p.1 = some p.2 := by
        rw [← hg1, ← hg2]
        exact dictLookup_zip_get ALPHABET_nodup hi him
      have hI := hInv p.1 hc
      rw [hlk, Option.some_bind] at hI
      exact hI
  refine ⟨?_, ?_, ?_⟩
  · constructor
    · intro hex
      obtain ⟨refl, hok⟩ := hex
      obtain ⟨hchk, _⟩ := reflector_init_ok.mp hok
      exact hbridge.mp (involutionCheck_ok.mp hchk)
    · intro hInv
      exact ⟨⟨ALPHABET.zip ms⟩, reflector_init_ok.mpr
        ⟨involutionCheck_ok.mpr (hbridge.mpr hInv), rfl⟩⟩
  · intro refl hok c hc
    obtain ⟨hchk, hrefl⟩ := reflector_init_ok.mp hok
    subst hrefl
    exact hbridge.mp (involutionCheck_ok.mp hchk) c hc
  · intro hnInv
    have hkeys : ∀ p ∈ ALPHABET.zip ms, ∃ v,
        dictLookup (ALPHABET.zip ms) p.2 = some v := by
      intro p hp
      exact zip_keys_lookup hlen (hchars p.2 (zip_mem_right hp))
    rcases involutionCheck_cases hkeys with hok | herr
    · exact absurd (hbridge.mp (involutionCheck_ok.mp hok)) hnInv
    · obtain ⟨x, y, he, hm, hne⟩ := herr
      exact ⟨x, y, reflector_init_error.mpr he,
        dictLookup_zip_of_mem ALPHABET_nodup hm, hne⟩

/-- Witness for claim C5 on the valid involutive mapping string Z..A. -/
theorem claim_C5_witness :
    ((∃ refl, Reflector.init ALPHABET.reverse = Except.ok refl) ↔
      ∀ c ∈ ALPHABET, (dictLookup (ALPHABET.zip ALPHABET.reverse) c).bind
        (dictLookup (ALPHABET.zip ALPHABET.reverse)) = some c) ∧
    (∀ refl, Reflector.init ALPHABET.reverse = Except.ok refl →
      ∀ c ∈ ALPHABET, (refl.reflect c).bind refl.reflect = some c) ∧
    ((¬ ∀ c ∈ ALPHABET, (dictLookup (ALPHABET.zip ALPHABET.reverse) c).bind
        (dictLookup (ALPHABET.zip ALPHABET.reverse)) = some c) →
      ∃ x y, Reflector.init ALPHABET.reverse = Except.error (valueErrorMsg x y) ∧
        dictLookup (ALPHABET.zip ALPHABET.reverse) x = some y ∧
        dictLookup (ALPHABET.zip ALPHABET.reverse) y ≠ some x) :=
  claim_C5 ALPHABET.reverse rfl (by decide)

/-- Claim C4: after routing an alphabetic character through the rotors and
the reflector, `encipher_character` rotates rotor 0 by `rotate 1`
unconditionally, then, walking the indices `i ≥ 1` upward, rotates rotor `i`
by one exactly when the (already updated) rotor `i-1` has
`rotations % (26 * i) = 0`; no other rotor moves and the reflector is
untouched. -/
theorem claim_C4 (m : Machine) (c out : Char) (m2 : Machine)
    (halpha : pyUpper c ∈ ALPHABET)
    (h : m.encipher_character c = some (out, m2)) :
    m2.reflector = m.reflector ∧
    m2.rotors.length = m.rotors.length ∧
    m2.rotors[0]? = (m.rotors[0]?).map (fun r => r.rotate 1) ∧
    ∀ i, 1 ≤ i → i < m.rotors.length →
      ∃ prevR r ri, m2.rotors[i - 1]? = some prevR ∧ m.rotors[i]? = some r ∧
        m2.rotors[i]? = some ri ∧
        ri = if prevR.rotations % (ALPHABET.length * i) = 0 then r.rotate 1 else r := by
  rcases encipher_character_cases h with ⟨hno, _, _⟩ | ⟨_, _, hrefl, hstep⟩
  · exact absurd halpha hno
  · obtain ⟨hlen, h0, hrest⟩ := stepRotors_get hstep
    exact ⟨hrefl, hlen, h0, hrest⟩

/-- Witness for claim C4: the three-rotor machine `machC2` enciphering 'A'. -/
theorem claim_C4_witness :
    (Machine.mk [idRotor.rotate 1, idRotor, idRotor] reflZ).reflector =
      machC2.reflector ∧
    (Machine.mk [idRotor.rotate 1, idRotor, idRotor] reflZ).rotors.length =
      machC2.rotors.length ∧
    (Machine.mk [idRotor.rotate 1, idRotor, idRotor] reflZ).rotors[0]? =
      (machC2.rotors[0]?).map (fun r => r.rotate 1) ∧
    ∀ i, 1 ≤ i → i < machC2.rotors.length →
      ∃ prevR r ri,
        (Machine.mk [idRotor.rotate 1, idRotor, idRotor] reflZ).rotors[i - 1]? =
          some prevR ∧
        machC2.rotors[i]? = some r ∧
        (Machine.mk [idRotor.rotate 1, idRotor, idRotor] reflZ).rotors[i]? = some ri ∧
        ri = if prevR.rotations % (ALPHABET.length * i) = 0 then r.rotate 1 else r :=
  claim_C4 machC2 'A' 'Z' (Machine.mk [idRotor.rotate 1, idRotor, idRotor] reflZ)
    (by decide) (by decide)

/-- Claim C1: for a freshly constructed machine — a nonempty list of rotors
built from permutation wiring strings, and a validly constructed reflector —
and any text of alphabet characters, `decipher (encipher T)` returns the
uppercased text; and `decipher` is by definition a reset followed by the same
encipher algorithm. -/
theorem claim_C1 (ws : List (List Char × Nat)) (ms : List Char) (refl : Reflector)
    (T : List Char) (hws : ws ≠ [])
    (hperm : ∀ p ∈ ws, (p.1).Perm ALPHABET)
    (hlen : ms.length = 26) (hok : Reflector.init ms = Except.ok refl)
    (hT : ∀ c ∈ T, c ∈ ALPHABET) :
    (∀ (m : Machine) (t : List Char), m.decipher t = m.reset.encipher t) ∧
    ∃ CT m1 m2,
      (Machine.mk (ws.map fun p => Rotor.init p.1 p.2) refl).encipher T =
        some (CT, m1) ∧
      m1.decipher CT = some (T.map pyUpper, m2) := by
  refine ⟨fun m t => rfl, ?_⟩
  have hreflWF := WF_of_reflector_init hlen hok
  have hWF : ∀ r ∈ ws.map fun p => Rotor.init p.1 p.2, r.WF := by
    intro r hr
    obtain ⟨p, hp, hpr⟩ := List.mem_map.mp hr
    rw [← hpr]
    exact WF_init (hperm p hp) p.2
  have hne : (ws.map fun p => Rotor.init p.1 p.2) ≠ [] := by
    intro hnil
    exact hws (List.map_eq_nil_iff.mp hnil)
  obtain ⟨CT, rsF, hCT, h1, h2, h3⟩ :=
    encipher_pair hreflWF T (ws.map fun p => Rotor.init p.1 p.2) hWF hne hT
  refine ⟨CT, ⟨rsF, refl⟩, ⟨rsF, refl⟩, h1, ?_⟩
  have hrs_reset : (ws.map fun p => Rotor.init p.1 p.2).map Rotor.reset =
      ws.map fun p => Rotor.init p.1 p.2 := by
    rw [List.map_map]
    have hcomp : (Rotor.reset ∘ fun p : List Char × Nat => Rotor.init p.1 p.2) =
        fun p : List Char × Nat => Rotor.init p.1 p.2 :=
      funext fun p => init_reset p.1 p.2
    rw [hcomp]
  show Machine.decipher ⟨rsF, refl⟩ CT = some (T.map pyUpper, ⟨rsF, refl⟩)
  unfold Machine.decipher Machine.reset
  dsimp only
  rw [h3, hrs_reset, map_pyUpper_id hT]
  exact h2

/-- Witness for claim C1: a one-rotor identity machine with the Z..A
reflector, on the text "HI". -/
theorem claim_C1_witness :
    (∀ (m : Machine) (t : List Char), m.decipher t = m.reset.encipher t) ∧
    ∃ CT m1 m2,
      (Machine.mk ([(ALPHABET, 0)].map fun p => Rotor.init p.1 p.2) reflZ).encipher
        ['H', 'I'] = some (CT, m1) ∧
      m1.decipher CT = some ((['H', 'I']).map pyUpper, m2) :=
  claim_C1 [(ALPHABET, 0)] ALPHABET.reverse reflZ ['H', 'I']
    (by decide) (by decide) rfl rfl (by decide)

/-- Claim C2, counterexample: on a concrete 3-rotor machine with all rotors
at initial offset 0, enciphering 26 consecutive 'A' characters leaves
rotor 1 at its starting rotated-alphabet view `ALPHABET` — it does NOT
advance by one rotation, whose view would be `rotList 1 ALPHABET` — because
the turnover condition `rotations % 26 == 0` never holds (rotor 0's counter
is overwritten to 1 on every step).  Rotor 0 does return to its starting
view. -/
theorem claim_C2_counterexample :
    ((machC2.encipher (List.replicate 26 'A')).map
      (fun p => p.2.rotors.map Rotor.alphabet)) =
      some [ALPHABET, ALPHABET, ALPHABET] ∧
    rotList 1 ALPHABET ≠ ALPHABET := by
  constructor
  · decide
  · decide

/-- Claim C2, amended: for a machine of 3 rotors built from permutation
wirings at initial offset 0 and a valid reflector, enciphering 26 consecutive
'A' characters brings rotor 0's rotated-alphabet view back to its starting
position (one full revolution), while rotor 1 and rotor 2 do not advance at
all — they remain exactly the freshly constructed rotors. -/
theorem claim_C2 (w1 w2 w3 ms : List Char) (refl : Reflector)
    (h1 : w1.Perm ALPHABET) (h2 : w2.Perm ALPHABET) (h3 : w3.Perm ALPHABET)
    (hlen : ms.length = 26) (hok : Reflector.init ms = Except.ok refl) :
    ∃ CT r0,
      (Machine.mk [Rotor.init w1 0, Rotor.init w2 0, Rotor.init w3 0] refl).encipher
        (List.replicate 26 'A') =
        some (CT, ⟨[r0, Rotor.init w2 0, Rotor.init w3 0], refl⟩) ∧
      r0.alphabet = (Rotor.init w1 0).alphabet := by
  have hreflWF := WF_of_reflector_init hlen hok
  have hWF : ∀ r ∈ [Rotor.init w1 0, Rotor.init w2 0, Rotor.init w3 0], r.WF := by
    intro r hr
    rcases List.mem_cons.mp hr with hr1 | hr
    · rw [hr1]
      exact WF_init h1 0
    rcases List.mem_cons.mp hr with hr1 | hr
    · rw [hr1]
      exact WF_init h2 0
    rcases List.mem_cons.mp hr with hr1 | hr
    · rw [hr1]
      exact WF_init h3 0
    · cases hr
  have hall : AllOnes [Rotor.init w1 0, Rotor.init w2 0, Rotor.init w3 0] := by
    intro r hr
    rcases List.mem_cons.mp hr with hr1 | hr
    · rw [hr1]
      rfl
    rcases List.mem_cons.mp hr with hr1 | hr
    · rw [hr1]
      rfl
    rcases List.mem_cons.mp hr with hr1 | hr
    · rw [hr1]
      rfl
    · cases hr
  have hT : ∀ c ∈ List.replicate 26 'A', c ∈ ALPHABET := by
    intro c hc
    rw [List.eq_of_mem_replicate hc]
    decide
  obtain ⟨CT, hCT⟩ := encipher_allones hreflWF (List.replicate 26 'A')
    (Rotor.init w1 0) [Rotor.init w2 0, Rotor.init w3 0] hWF hall hT
  rw [List.length_replicate] at hCT
  refine ⟨CT, (fun r => Rotor.rotate r 1)^[26] (Rotor.init w1 0), hCT, ?_⟩
  have halpha : ∀ n, n ≤ 26 →
      ((fun r => Rotor.rotate r 1)^[n] (Rotor.init w1 0)).alphabet =
        rotList n ALPHABET := by
    intro n
    induction n with
    | zero =>
      intro _
      rw [Function.iterate_zero_apply]
      rfl
    | succ k ih =>
      intro hk
      rw [Function.iterate_succ_apply']
      show rotList 1 (((fun r => Rotor.rotate r 1)^[k] (Rotor.init w1 0)).alphabet) =
        rotList (k + 1) ALPHABET
      rw [ih (by omega)]
      refine rotList_one_rotList ?_
      rw [ALPHABET_length]
      omega
  rw [halpha 26 (by omega)]
  rfl

/-- Witness for claim C2 (amended) on three identity rotors and the Z..A
reflector. -/
theorem claim_C2_witness :
    ∃ CT r0,
      (Machine.mk [Rotor.init ALPHABET 0, Rotor.init ALPHABET 0, Rotor.init ALPHABET 0]
        reflZ).encipher (List.replicate 26 'A') =
        some (CT, ⟨[r0, Rotor.init ALPHABET 0, Rotor.init ALPHABET 0], reflZ⟩) ∧
      r0.alphabet = (Rotor.init ALPHABET 0).alphabet :=
  claim_C2 ALPHABET ALPHABET ALPHABET ALPHABET.reverse reflZ
    (by decide) (by decide) (by decide) rfl rfl

end Enigma
